import Mathlib

/-!
Verification of the KONCAR assignment utilities: the hexadecimal codec pair
`binary_to_string` / `string_to_binary` and the two directory-size variants
`directory_size` (flat, `recursive_directory_iterator`) and
`directory_size_recursive` (nested recursion with `directory_iterator`).

Bytes are modelled as `Fin 256` (the C++ `uint8_t`); characters carry their
code point through `Char.toNat`; the decoder's exception branch is `none`.
-/

namespace Koncar

/-- `std::isxdigit` in the default locale on a code point: 0-9, A-F, a-f. -/
def isHexN (n : Nat) : Bool :=
  decide ((48 ≤ n ∧ n ≤ 57) ∨ (65 ≤ n ∧ n ≤ 70) ∨ (97 ≤ n ∧ n ≤ 102))

/-- Value of a hex digit code point, as `iss >> std::hex` assigns it per char. -/
def hexValN (n : Nat) : Nat :=
  if 48 ≤ n ∧ n ≤ 57 then n - 48
  else if 65 ≤ n ∧ n ≤ 70 then n - 55
  else if 97 ≤ n ∧ n ≤ 102 then n - 87
  else 0

/-- Code point of the hex digit for `m < 16`, case chosen by `std::uppercase`. -/
def hexDigitN (uppercase : Bool) (m : Nat) : Nat :=
  if m < 10 then 48 + m else (if uppercase then 55 else 87) + m

/-- The two characters `oss << std::hex << std::setw(2) << std::setfill('0')`
emits for a byte `b < 256`: high nibble then low nibble, zero padded. -/
def byteToHex (uppercase : Bool) (b : Nat) : List Char :=
  [Char.ofNat (hexDigitN uppercase (b / 16)), Char.ofNat (hexDigitN uppercase (b % 16))]

/-- `koncar::binary_to_string`: concatenate the two-digit hex form of each
byte in input order (C++ default for the flag is `uppercase = true`). -/
def binary_to_string (data : List (Fin 256)) (uppercase : Bool) : String :=
  String.mk ((data.map fun b => byteToHex uppercase b.val).flatten)

/-- `std::isxdigit` on a character. -/
def isHexDigit (c : Char) : Bool := isHexN c.toNat

/-- Hex value of a character. -/
def hexVal (c : Char) : Nat := hexValN c.toNat

/-- The loop of `koncar::string_to_binary`: consume two characters at a time;
a non-hex character throws `std::invalid_argument`, modelled as `none`; a
valid pair becomes the byte `16*hi + lo` (the `static_cast<uint8_t>`). -/
def decodePairs : List Char → Option (List (Fin 256))
  | c1 :: c2 :: rest =>
    if isHexDigit c1 && isHexDigit c2 then
      match decodePairs rest with
      | some bs => some (⟨(16 * hexVal c1 + hexVal c2) % 256, Nat.mod_lt _ (by omega)⟩ :: bs)
      | none => none
    else none
  | _ => some []

/-- `koncar::string_to_binary`: reject odd length (`str.size() & 1`), then
decode pairwise; `none` is the caught-exception branch (C++ returns `{}`). -/
def string_to_binary (s : String) : Option (List (Fin 256)) :=
  if s.data.length % 2 = 1 then none else decodePairs s.data

/-- ASCII lower-casing on code points (A-Z to a-z, all else fixed). -/
def lowerN (n : Nat) : Nat := if 65 ≤ n ∧ n ≤ 90 then n + 32 else n

/-- ASCII upper-casing on code points (a-z to A-Z, all else fixed). -/
def upperN (n : Nat) : Nat := if 97 ≤ n ∧ n ≤ 122 then n - 32 else n

/-- ASCII lower-casing on characters. -/
def lowerChar (c : Char) : Char := Char.ofNat (lowerN c.toNat)

/-- ASCII upper-casing on characters. -/
def upperChar (c : Char) : Char := Char.ofNat (upperN c.toNat)

example : binary_to_string [0xBA, 0xAD, 0xF0, 0x0D] true = "BAADF00D" := by decide
example : string_to_binary "BAADF00D" = some [0xBA, 0xAD, 0xF0, 0x0D] := by decide
example : string_to_binary "ABC" = none := by decide
example : string_to_binary "ZZ" = none := by decide
example : binary_to_string [0x0A] false = "0a" := by decide

/-!
Directory model. An `Entry` is a filesystem node as the traversal's
classification predicates see it: a regular file, a directory, or anything
else (socket, device, dangling link, ...). `Option Nat` fields record what
`fs::file_size` reports for the entry (`none` = it throws, the
`EntryAccessError` case); `readable` records whether opening the directory
for iteration succeeds (`false` = `directory_iterator` / the recursive
iterator's increment throws on it).
-/

inductive Entry : Type where
  | file (sz : Option Nat) : Entry
  | other (sz : Option Nat) : Entry
  | dir (selfSz : Option Nat) (readable : Bool) (children : List Entry) : Entry

/-- What `fs::file_size(entry)` yields for an entry (`none` = throws). -/
def entrySize : Entry → Option Nat
  | .file sz => sz
  | .other sz => sz
  | .dir sz _ _ => sz

mutual

/-- One step of `koncar::directory_size`'s traversal at a visited entry, in
the pre-order of `recursive_directory_iterator`: the body adds
`fs::file_size(entry)` (a throw is caught by the inner handler and adds 0),
then the iterator increment descends into a directory — a failed descent
throws past the loop into the outer handler, which the `Bool` component
records (`false` = traversal aborted). -/
def flatEntry : Entry → Nat × Bool
  | .file sz => (sz.getD 0, true)
  | .other sz => (sz.getD 0, true)
  | .dir sz false _ => (sz.getD 0, false)
  | .dir sz true cs =>
    match flatList cs with
    | (s, ok) => (sz.getD 0 + s, ok)

/-- `koncar::directory_size`'s loop over a sibling list: accumulate entry by
entry, stopping as soon as a descent failure escapes to the outer handler. -/
def flatList : List Entry → Nat × Bool
  | [] => (0, true)
  | e :: rest =>
    match flatEntry e with
    | (s, true) =>
      match flatList rest with
      | (s2, ok2) => (s + s2, ok2)
    | (s, false) => (s, false)

end

/-- `koncar::directory_size(path)`: a root that is missing, not a directory,
or unopenable makes the iterator constructor throw into the outer handler,
returning the accumulated 0; otherwise traverse the subtree and return the
accumulated sum (partial if the traversal aborted). -/
def directory_size : Option Entry → Nat
  | some (.dir _ true cs) => (flatList cs).1
  | _ => 0

mutual

/-- Contribution of one child entry in `koncar::directory_size_recursive`:
a regular file adds `fs::file_size` (a throw is caught per entry, adding 0),
a directory adds the recursive call's result (an unopenable one makes the
recursive call's own iterator throw, caught inside it, yielding 0), every
other entry type is skipped. -/
def recChild : Entry → Nat
  | .file sz => sz.getD 0
  | .other _ => 0
  | .dir _ false _ => 0
  | .dir _ true cs => recList cs

/-- `koncar::directory_size_recursive`'s loop over one directory level. -/
def recList : List Entry → Nat
  | [] => 0
  | e :: rest => recChild e + recList rest

end

/-- `koncar::directory_size_recursive(path)` at the root: a missing,
non-directory or unopenable root throws into the outer handler and the
accumulated 0 is returned; otherwise sum the level and recurse. -/
def directory_size_recursive : Option Entry → Nat
  | some (.dir _ true cs) => recList cs
  | _ => 0

mutual

/-- Total of the sizes of the regular files in a subtree (the spec's
"sum of file contents"): what the nested variant is meant to compute. -/
def entryFileTotal : Entry → Nat
  | .file sz => sz.getD 0
  | .other _ => 0
  | .dir _ _ cs => listFileTotal cs

/-- `entryFileTotal` over a sibling list. -/
def listFileTotal : List Entry → Nat
  | [] => 0
  | e :: rest => entryFileTotal e + listFileTotal rest

end

mutual

/-- Total of `fs::file_size` over every entry of a subtree, directories'
own metadata sizes included: what the flat variant computes on a tree it
can fully traverse. -/
def entryAllTotal : Entry → Nat
  | .file sz => sz.getD 0
  | .other sz => sz.getD 0
  | .dir sz _ cs => sz.getD 0 + listAllTotal cs

/-- `entryAllTotal` over a sibling list. -/
def listAllTotal : List Entry → Nat
  | [] => 0
  | e :: rest => entryAllTotal e + listAllTotal rest

end

mutual

/-- Every directory in the subtree (the entry itself included) opens. -/
def entryDirsReadable : Entry → Bool
  | .file _ => true
  | .other _ => true
  | .dir _ r cs => r && listDirsReadable cs

/-- `entryDirsReadable` over a sibling list. -/
def listDirsReadable : List Entry → Bool
  | [] => true
  | e :: rest => entryDirsReadable e && listDirsReadable rest

end

mutual

/-- Nesting depth of an entry (directories count their deepest chain). -/
def entryHeight : Entry → Nat
  | .file _ => 0
  | .other _ => 0
  | .dir _ _ cs => listHeight cs + 1

/-- Greatest `entryHeight` in a sibling list. -/
def listHeight : List Entry → Nat
  | [] => 0
  | e :: rest => max (entryHeight e) (listHeight rest)

end

mutual

/-- Fuelled interpreter for `recChild`: each recursive descent into a
directory consumes one unit of fuel; `none` = fuel exhausted. -/
def recChildFuel : Nat → Entry → Option Nat
  | _, .file sz => some (sz.getD 0)
  | _, .other _ => some 0
  | _, .dir _ false _ => some 0
  | 0, .dir _ true _ => none
  | f + 1, .dir _ true cs => recListFuel f cs

/-- Fuelled interpreter for `recList`. -/
def recListFuel : Nat → List Entry → Option Nat
  | _, [] => some 0
  | f, e :: rest =>
    match recChildFuel f e with
    | none => none
    | some a =>
      match recListFuel f rest with
      | none => none
      | some b => some (a + b)

end

/-- Fuelled `koncar::directory_size_recursive` at the root. -/
def directory_size_recursive_fuel (f : Nat) : Option Entry → Option Nat
  | some (.dir _ true cs) => recListFuel f cs
  | _ => some 0

/-- Depth of the call tree rooted at a root path. -/
def rootHeight : Option Entry → Nat
  | some (.dir _ _ cs) => listHeight cs
  | _ => 0

/-- Does the root open as a directory (does the iterator constructor not
throw)? -/
def rootOpens : Option Entry → Bool
  | some (.dir _ true _) => true
  | _ => false

example : directory_size_recursive (some (.dir none true [.file (some 7), .dir none true []])) = 7 := by decide
example : directory_size (some (.dir none true [.dir (some 3) true [.file (some 7)], .file (some 5)])) = 15 := by decide
example : directory_size (some (.dir none true [.dir (some 3) false [.file (some 7)], .file (some 5)])) = 3 := by decide
example : directory_size_recursive (some (.dir none true [.dir (some 3) false [.file (some 7)], .file (some 5)])) = 5 := by decide
example : directory_size none = 0 := by decide

/-! Helper lemmas for the codec. -/

theorem hexDigit_spec : ∀ (uc : Bool) (m : Fin 16),
    isHexN (hexDigitN uc m.val) = true ∧ hexValN (hexDigitN uc m.val) = m.val ∧
    (Char.ofNat (hexDigitN uc m.val)).toNat = hexDigitN uc m.val := by
  decide

theorem encode_length (uc : Bool) (b : List (Fin 256)) :
    ((b.map fun x => byteToHex uc x.val).flatten).length = 2 * b.length := by
  induction b with
  | nil => rfl
  | cons x xs ih =>
    simp only [List.map_cons, List.flatten_cons, List.length_append, ih]
    simp only [byteToHex, List.length_cons, List.length_nil]
    omega

theorem decode_encode_list (uc : Bool) : ∀ b : List (Fin 256),
    decodePairs ((b.map fun x => byteToHex uc x.val).flatten) = some b
  | [] => rfl
  | x :: xs => by
    have hx : x.val < 256 := x.isLt
    have hhi : x.val / 16 < 16 := by omega
    have hlo : x.val % 16 < 16 := Nat.mod_lt _ (by omega)
    have e1 := hexDigit_spec uc ⟨x.val / 16, hhi⟩
    have e2 := hexDigit_spec uc ⟨x.val % 16, hlo⟩
    have e1a : isHexN (hexDigitN uc (x.val / 16)) = true := e1.1
    have e1b : hexValN (hexDigitN uc (x.val / 16)) = x.val / 16 := e1.2.1
    have e1c : (Char.ofNat (hexDigitN uc (x.val / 16))).toNat = hexDigitN uc (x.val / 16) := e1.2.2
    have e2a : isHexN (hexDigitN uc (x.val % 16)) = true := e2.1
    have e2b : hexValN (hexDigitN uc (x.val % 16)) = x.val % 16 := e2.2.1
    have e2c : (Char.ofNat (hexDigitN uc (x.val % 16))).toNat = hexDigitN uc (x.val % 16) := e2.2.2
    have ih := decode_encode_list uc xs
    simp only [byteToHex] at ih
    simp only [List.map_cons, List.flatten_cons, byteToHex, List.cons_append, List.nil_append]
    simp only [decodePairs, isHexDigit, hexVal, e1c, e2c, e1a, e2a, Bool.and_self, if_true, ih]
    simp only [e1b, e2b]
    have hv : 16 * (x.val / 16) + x.val % 16 = x.val := by omega
    simp only [hv, Nat.mod_eq_of_lt hx, Fin.eta]

/-- C1: round-trip law — for every ByteSequence `b` and both values of the
uppercase flag, `string_to_binary (binary_to_string b uppercase)` succeeds
and returns exactly `b`. -/
theorem string_to_binary_binary_to_string (b : List (Fin 256)) (uc : Bool) :
    string_to_binary (binary_to_string b uc) = some b := by
  show (if ((b.map fun x => byteToHex uc x.val).flatten).length % 2 = 1 then none
        else decodePairs ((b.map fun x => byteToHex uc x.val).flatten)) = some b
  rw [encode_length uc b, if_neg (by omega), decode_encode_list uc b]

theorem decodePairs_cons_cons (c1 c2 : Char) (rest : List Char) :
    decodePairs (c1 :: c2 :: rest) =
      if isHexDigit c1 && isHexDigit c2 then
        match decodePairs rest with
        | some bs => some (⟨(16 * hexVal c1 + hexVal c2) % 256, Nat.mod_lt _ (by omega)⟩ :: bs)
        | none => none
      else none := rfl

theorem decodePairs_none_iff : ∀ l : List Char, l.length % 2 = 0 →
    (decodePairs l = none ↔ ∃ c ∈ l, isHexDigit c = false)
  | [] => by
    intro _
    simp [decodePairs]
  | [c] => by
    intro h
    simp at h
  | c1 :: c2 :: rest => by
    intro h
    have hr : rest.length % 2 = 0 := by
      simp only [List.length_cons] at h
      omega
    have ih := decodePairs_none_iff rest hr
    rw [decodePairs_cons_cons]
    by_cases hx : (isHexDigit c1 && isHexDigit c2) = true
    · rw [if_pos hx]
      rw [Bool.and_eq_true] at hx
      by_cases hrest : decodePairs rest = none
      · simp only [hrest]
        simp only [eq_self_iff_true, true_iff]
        obtain ⟨c, hc, hcf⟩ := ih.mp hrest
        exact ⟨c, List.mem_cons_of_mem _ (List.mem_cons_of_mem _ hc), hcf⟩
      · obtain ⟨bs, hbs⟩ := Option.ne_none_iff_exists'.mp hrest
        simp only [hbs]
        constructor
        · intro hfalse
          exact absurd hfalse (by simp)
        · rintro ⟨c, hc, hcf⟩
          rcases List.mem_cons.mp hc with rfl | hc2
          · rw [hx.1] at hcf
            cases hcf
          · rcases List.mem_cons.mp hc2 with rfl | hc3
            · rw [hx.2] at hcf
              cases hcf
            · have hn : decodePairs rest = none := ih.mpr ⟨c, hc3, hcf⟩
              exact absurd hn hrest
    · rw [if_neg hx]
      simp only [Bool.and_eq_true, not_and_or, Bool.not_eq_true] at hx
      simp only [eq_self_iff_true, true_iff]
      rcases hx with h1 | h1
      · exact ⟨c1, List.mem_cons_self _ _, h1⟩
      · exact ⟨c2, List.mem_cons_of_mem _ (List.mem_cons_self _ _), h1⟩

/-- C2: `string_to_binary` takes its error branch (returns via the caught
`std::invalid_argument`, modelled `none`) exactly when the input has odd
length or contains a character that is not a hexadecimal digit. -/
theorem string_to_binary_error_iff (s : String) :
    string_to_binary s = none ↔
      (s.data.length % 2 = 1 ∨ ∃ c ∈ s.data, isHexDigit c = false) := by
  show (if s.data.length % 2 = 1 then none else decodePairs s.data) = none ↔ _
  by_cases h : s.data.length % 2 = 1
  · rw [if_pos h]
    exact ⟨fun _ => Or.inl h, fun _ => rfl⟩
  · rw [if_neg h]
    have h0 : s.data.length % 2 = 0 := by omega
    rw [decodePairs_none_iff s.data h0]
    constructor
    · exact Or.inr
    · rintro (hodd | hbad)
      · exact absurd hodd h
      · exact hbad

theorem hexDigitN_spec (uc : Bool) (m : Nat) (hm : m < 16) :
    isHexN (hexDigitN uc m) = true ∧ hexValN (hexDigitN uc m) = m ∧
    (Char.ofNat (hexDigitN uc m)).toNat = hexDigitN uc m :=
  hexDigit_spec uc ⟨m, hm⟩

theorem hexDigit_case : ∀ m : Fin 16,
    Char.ofNat (hexDigitN true m.val) = upperChar (Char.ofNat (hexDigitN false m.val)) ∧
    Char.ofNat (hexDigitN false m.val) = lowerChar (Char.ofNat (hexDigitN true m.val)) := by
  decide

theorem hexDigitN_case (m : Nat) (hm : m < 16) :
    Char.ofNat (hexDigitN true m) = upperChar (Char.ofNat (hexDigitN false m)) ∧
    Char.ofNat (hexDigitN false m) = lowerChar (Char.ofNat (hexDigitN true m)) :=
  hexDigit_case ⟨m, hm⟩

/-- C3: `binary_to_string` emits exactly two hex-digit characters per byte,
zero padded, in input order (its output on `x :: xs` is the two digits of
`x` followed by the output on `xs`), the uppercase flag selects the letter
case, `{0xBA, 0xAD, 0xF0, 0x0D}` encodes to `"BAADF00D"`, and the output
length is always `2 *` the input length, hence even. -/
theorem binary_to_string_shape :
    (∀ (data : List (Fin 256)) (uc : Bool), (binary_to_string data uc).length = 2 * data.length)
    ∧ binary_to_string [0xBA, 0xAD, 0xF0, 0x0D] true = "BAADF00D"
    ∧ binary_to_string [0x0A] true = "0A" ∧ binary_to_string [0x0A] false = "0a"
    ∧ (∀ (uc : Bool) (x : Fin 256) (xs : List (Fin 256)),
        (binary_to_string (x :: xs) uc).data = byteToHex uc x.val ++ (binary_to_string xs uc).data)
    ∧ (∀ (uc : Bool) (b : Fin 256), (byteToHex uc b.val).length = 2
        ∧ ∀ c ∈ byteToHex uc b.val, isHexDigit c = true)
    ∧ (∀ b : Fin 256, byteToHex true b.val = (byteToHex false b.val).map upperChar) := by
  refine ⟨?_, by decide, by decide, by decide, ?_, ?_, ?_⟩
  · intro data uc
    exact encode_length uc data
  · intro uc x xs
    rfl
  · intro uc b
    have hhi : b.val / 16 < 16 := by
      have := b.isLt
      omega
    have hlo : b.val % 16 < 16 := Nat.mod_lt _ (by omega)
    refine ⟨rfl, ?_⟩
    intro c hc
    rcases List.mem_cons.mp hc with rfl | hc2
    · show isHexN (Char.ofNat (hexDigitN uc (b.val / 16))).toNat = true
      rw [(hexDigitN_spec uc _ hhi).2.2]
      exact (hexDigitN_spec uc _ hhi).1
    · rcases List.mem_cons.mp hc2 with rfl | hc3
      · show isHexN (Char.ofNat (hexDigitN uc (b.val % 16))).toNat = true
        rw [(hexDigitN_spec uc _ hlo).2.2]
        exact (hexDigitN_spec uc _ hlo).1
      · cases hc3
  · intro b
    have hhi : b.val / 16 < 16 := by
      have := b.isLt
      omega
    have hlo : b.val % 16 < 16 := Nat.mod_lt _ (by omega)
    simp only [byteToHex, List.map_cons, List.map_nil]
    rw [(hexDigitN_case _ hhi).1, (hexDigitN_case _ hlo).1]

theorem lowerN_hex (a b : Nat) (h : lowerN a = lowerN b) :
    isHexN a = isHexN b ∧ (isHexN a = true → hexValN a = hexValN b) := by
  unfold lowerN at h
  constructor
  · unfold isHexN
    rw [decide_eq_decide]
    split_ifs at h <;> omega
  · intro ha
    unfold isHexN at ha
    rw [decide_eq_true_eq] at ha
    unfold hexValN
    split_ifs at h <;> split_ifs <;> omega

theorem decodePairs_lower_congr : ∀ (l1 l2 : List Char),
    l1.map (fun c => lowerN c.toNat) = l2.map (fun c => lowerN c.toNat) →
    decodePairs l1 = decodePairs l2
  | [], [] => fun _ => rfl
  | [], _ :: _ => by
    intro h
    cases h
  | _ :: _, [] => by
    intro h
    cases h
  | [_], [_] => fun _ => rfl
  | [_], _ :: _ :: _ => by
    intro h
    simp at h
  | _ :: _ :: _, [_] => by
    intro h
    simp at h
  | c1 :: c2 :: r1, d1 :: d2 :: r2 => by
    intro h
    simp only [List.map_cons, List.cons.injEq] at h
    obtain ⟨h1, h2, h3⟩ := h
    have ih := decodePairs_lower_congr r1 r2 h3
    have hhx1 := lowerN_hex _ _ h1
    have hhx2 := lowerN_hex _ _ h2
    rw [decodePairs_cons_cons, decodePairs_cons_cons]
    by_cases hg : (isHexDigit d1 && isHexDigit d2) = true
    · have hg' : (isHexDigit c1 && isHexDigit c2) = true := by
        show (isHexN c1.toNat && isHexN c2.toNat) = true
        rw [hhx1.1, hhx2.1]
        exact hg
      rw [Bool.and_eq_true] at hg
      have hgc1 : isHexN c1.toNat = true := by
        rw [hhx1.1]
        exact hg.1
      have hgc2 : isHexN c2.toNat = true := by
        rw [hhx2.1]
        exact hg.2
      have hv1 : hexVal c1 = hexVal d1 := hhx1.2 hgc1
      have hv2 : hexVal c2 = hexVal d2 := hhx2.2 hgc2
      rw [if_pos hg', if_pos (by rw [Bool.and_eq_true]; exact hg), ih]
      cases hrest : decodePairs r2 with
      | none => rfl
      | some bs =>
        simp only [Option.some.injEq, List.cons.injEq, Fin.mk.injEq]
        exact ⟨by rw [hv1, hv2], trivial⟩
    · have hg' : ¬ (isHexDigit c1 && isHexDigit c2) = true := by
        show ¬ (isHexN c1.toNat && isHexN c2.toNat) = true
        rw [hhx1.1, hhx2.1]
        exact hg
      rw [if_neg hg', if_neg hg]

/-- C4: decoding is case-insensitive — any two strings equal up to ASCII
letter case decode identically; in particular `"BAAD"`, `"baad"` and
`"bAaD"` all decode to the same ByteSequence. -/
theorem string_to_binary_case_insensitive :
    (∀ s t : String,
      s.data.map (fun c => lowerN c.toNat) = t.data.map (fun c => lowerN c.toNat) →
      string_to_binary s = string_to_binary t)
    ∧ string_to_binary "BAAD" = string_to_binary "baad"
    ∧ string_to_binary "baad" = string_to_binary "bAaD" := by
  refine ⟨?_, by decide, by decide⟩
  intro s t h
  have hlen : s.data.length = t.data.length := by
    have := congrArg List.length h
    simpa using this
  show (if s.data.length % 2 = 1 then none else decodePairs s.data)
     = (if t.data.length % 2 = 1 then none else decodePairs t.data)
  rw [hlen]
  by_cases hp : t.data.length % 2 = 1
  · rw [if_pos hp, if_pos hp]
  · rw [if_neg hp, if_neg hp, decodePairs_lower_congr s.data t.data h]

/-- Witness for C4: applies the case-insensitivity law at a concrete pair. -/
theorem string_to_binary_case_insensitive_witness :
    string_to_binary "AB" = string_to_binary "ab" :=
  string_to_binary_case_insensitive.1 "AB" "ab" (by decide)

theorem hexVal_lt (n : Nat) : hexValN n < 16 := by
  unfold hexValN
  split_ifs <;> omega

theorem isHexN_lt (n : Nat) (h : isHexN n = true) : n < 128 := by
  unfold isHexN at h
  rw [decide_eq_true_eq] at h
  omega

theorem hexDigitN_of_hexVal_fin : ∀ n : Fin 128, isHexN n.val = true →
    hexDigitN true (hexValN n.val) = upperN n.val ∧
    hexDigitN false (hexValN n.val) = lowerN n.val := by
  decide

theorem hexDigitN_of_hexVal (n : Nat) (h : isHexN n = true) :
    hexDigitN true (hexValN n) = upperN n ∧ hexDigitN false (hexValN n) = lowerN n :=
  hexDigitN_of_hexVal_fin ⟨n, isHexN_lt n h⟩ h

theorem fin256_val_mk (a : Nat) (h : a < 256) : ((⟨a, h⟩ : Fin 256) : Fin 256).val = a := rfl

theorem decode_then_encode : ∀ l : List Char, l.length % 2 = 0 →
    (∀ c ∈ l, isHexDigit c = true) →
    ∃ bs, decodePairs l = some bs ∧
      ((bs.map fun x => byteToHex true x.val).flatten = l.map upperChar) ∧
      ((bs.map fun x => byteToHex false x.val).flatten = l.map lowerChar)
  | [] => by
    intro _ _
    exact ⟨[], rfl, rfl, rfl⟩
  | [_] => by
    intro h _
    simp at h
  | c1 :: c2 :: rest => by
    intro h hhex
    have hr : rest.length % 2 = 0 := by
      simp only [List.length_cons] at h
      omega
    have hx1 : isHexDigit c1 = true := hhex c1 (by simp)
    have hx2 : isHexDigit c2 = true := hhex c2 (by simp)
    have h1lt : hexVal c1 < 16 := hexVal_lt _
    have h2lt : hexVal c2 < 16 := hexVal_lt _
    obtain ⟨bs, hbs, hU, hL⟩ := decode_then_encode rest hr (fun c hc => hhex c (by simp [hc]))
    simp only [byteToHex] at hU hL
    have hmod : (16 * hexVal c1 + hexVal c2) % 256 = 16 * hexVal c1 + hexVal c2 :=
      Nat.mod_eq_of_lt (by omega)
    have hdiv : (16 * hexVal c1 + hexVal c2) / 16 = hexVal c1 := by omega
    have hmod16 : (16 * hexVal c1 + hexVal c2) % 16 = hexVal c2 := by omega
    have u1 : hexDigitN true (hexVal c1) = upperN c1.toNat := (hexDigitN_of_hexVal c1.toNat hx1).1
    have u2 : hexDigitN true (hexVal c2) = upperN c2.toNat := (hexDigitN_of_hexVal c2.toNat hx2).1
    have w1 : hexDigitN false (hexVal c1) = lowerN c1.toNat := (hexDigitN_of_hexVal c1.toNat hx1).2
    have w2 : hexDigitN false (hexVal c2) = lowerN c2.toNat := (hexDigitN_of_hexVal c2.toNat hx2).2
    refine ⟨⟨(16 * hexVal c1 + hexVal c2) % 256, Nat.mod_lt _ (by omega)⟩ :: bs, ?_, ?_, ?_⟩
    · rw [decodePairs_cons_cons, if_pos (by rw [hx1, hx2]; rfl), hbs]
    · simp only [List.map_cons, List.flatten_cons, byteToHex, fin256_val_mk, hmod, hdiv, hmod16]
      rw [u1, u2, hU]
      rfl
    · simp only [List.map_cons, List.flatten_cons, byteToHex, fin256_val_mk, hmod, hdiv, hmod16]
      rw [w1, w2, hL]
      rfl

/-- C9: reverse round-trip — on every even-length string of hex digits the
decoder succeeds, and re-encoding the result reproduces the input with its
letters upper-cased (uppercase flag `true`) or lower-cased (flag `false`). -/
theorem binary_to_string_string_to_binary (s : String) (heven : s.data.length % 2 = 0)
    (hhex : ∀ c ∈ s.data, isHexDigit c = true) :
    ∃ bs, string_to_binary s = some bs ∧
      binary_to_string bs true = String.mk (s.data.map upperChar) ∧
      binary_to_string bs false = String.mk (s.data.map lowerChar) := by
  obtain ⟨bs, hbs, hU, hL⟩ := decode_then_encode s.data heven hhex
  refine ⟨bs, ?_, ?_, ?_⟩
  · show (if s.data.length % 2 = 1 then none else decodePairs s.data) = some bs
    rw [if_neg (by omega), hbs]
  · show String.mk ((bs.map fun x => byteToHex true x.val).flatten) = _
    rw [hU]
  · show String.mk ((bs.map fun x => byteToHex false x.val).flatten) = _
    rw [hL]

/-- Witness for C9: the reverse round-trip at the concrete input `"baAd"`. -/
theorem binary_to_string_string_to_binary_witness :
    ∃ bs, string_to_binary "baAd" = some bs ∧
      binary_to_string bs true = String.mk ("baAd".data.map upperChar) ∧
      binary_to_string bs false = String.mk ("baAd".data.map lowerChar) :=
  binary_to_string_string_to_binary "baAd" (by decide) (by decide)

/-! Helper lemmas for the directory-size aggregators. -/

mutual

theorem recChild_eq_fileTotal : ∀ e : Entry, entryDirsReadable e = true →
    recChild e = entryFileTotal e
  | .file _ => fun _ => rfl
  | .other _ => fun _ => rfl
  | .dir _ false _ => by
    intro h
    simp only [entryDirsReadable, Bool.false_and] at h
    cases h
  | .dir _ true cs => by
    intro h
    simp only [entryDirsReadable, Bool.true_and] at h
    exact recList_eq_fileTotal cs h

theorem recList_eq_fileTotal : ∀ cs : List Entry, listDirsReadable cs = true →
    recList cs = listFileTotal cs
  | [] => fun _ => rfl
  | e :: rest => by
    intro h
    simp only [listDirsReadable, Bool.and_eq_true] at h
    show recChild e + recList rest = entryFileTotal e + listFileTotal rest
    rw [recChild_eq_fileTotal e h.1, recList_eq_fileTotal rest h.2]

end

mutual

theorem flatEntry_eq_allTotal : ∀ e : Entry, entryDirsReadable e = true →
    flatEntry e = (entryAllTotal e, true)
  | .file _ => fun _ => rfl
  | .other _ => fun _ => rfl
  | .dir _ false _ => by
    intro h
    simp only [entryDirsReadable, Bool.false_and] at h
    cases h
  | .dir sz true cs => by
    intro h
    simp only [entryDirsReadable, Bool.true_and] at h
    show (match flatList cs with
          | (s, ok) => (sz.getD 0 + s, ok)) = (sz.getD 0 + listAllTotal cs, true)
    rw [flatList_eq_allTotal cs h]

theorem flatList_eq_allTotal : ∀ cs : List Entry, listDirsReadable cs = true →
    flatList cs = (listAllTotal cs, true)
  | [] => fun _ => rfl
  | e :: rest => by
    intro h
    simp only [listDirsReadable, Bool.and_eq_true] at h
    show (match flatEntry e with
          | (s, true) =>
            match flatList rest with
            | (s2, ok2) => (s + s2, ok2)
          | (s, false) => (s, false)) = (entryAllTotal e + listAllTotal rest, true)
    rw [flatEntry_eq_allTotal e h.1, flatList_eq_allTotal rest h.2]

end

theorem flatList_skip (e : Entry) (he : flatEntry e = (0, true)) :
    ∀ cs1 cs2 : List Entry, flatList (cs1 ++ e :: cs2) = flatList (cs1 ++ cs2)
  | [], cs2 => by
    rw [List.nil_append, List.nil_append]
    show (match flatEntry e with
          | (s, true) =>
            match flatList cs2 with
            | (s2, ok2) => (s + s2, ok2)
          | (s, false) => (s, false)) = flatList cs2
    rw [he]
    cases hf : flatList cs2 with
    | mk s2 ok2 => simp
  | e1 :: rest, cs2 => by
    rw [List.cons_append, List.cons_append]
    show (match flatEntry e1 with
          | (s, true) =>
            match flatList (rest ++ e :: cs2) with
            | (s2, ok2) => (s + s2, ok2)
          | (s, false) => (s, false)) =
         (match flatEntry e1 with
          | (s, true) =>
            match flatList (rest ++ cs2) with
            | (s2, ok2) => (s + s2, ok2)
          | (s, false) => (s, false))
    rw [flatList_skip e he rest cs2]

theorem flatList_abort (d : Entry) (s0 : Nat) (hd : flatEntry d = (s0, false)) :
    ∀ cs1 cs2 : List Entry, (flatList cs1).2 = true →
      flatList (cs1 ++ d :: cs2) = ((flatList cs1).1 + s0, false)
  | [], cs2 => by
    intro _
    rw [List.nil_append]
    show (match flatEntry d with
          | (s, true) =>
            match flatList cs2 with
            | (s2, ok2) => (s + s2, ok2)
          | (s, false) => (s, false)) = ((flatList ([] : List Entry)).1 + s0, false)
    rw [hd]
    show (s0, false) = (0 + s0, false)
    rw [Nat.zero_add]
  | e1 :: rest, cs2 => by
    intro h
    cases hfe : flatEntry e1 with
    | mk s ok =>
      cases ok with
      | false =>
        exfalso
        have : flatList (e1 :: rest) = (s, false) := by
          show (match flatEntry e1 with
                | (s, true) =>
                  match flatList rest with
                  | (s2, ok2) => (s + s2, ok2)
                | (s, false) => (s, false)) = (s, false)
          rw [hfe]
        rw [this] at h
        cases h
      | true =>
        have hrest : (flatList rest).2 = true := by
          have hexp : flatList (e1 :: rest) =
              (s + (flatList rest).1, (flatList rest).2) := by
            show (match flatEntry e1 with
                  | (s, true) =>
                    match flatList rest with
                    | (s2, ok2) => (s + s2, ok2)
                  | (s, false) => (s, false)) = (s + (flatList rest).1, (flatList rest).2)
            rw [hfe]
          rw [hexp] at h
          exact h
        have hexp : flatList (e1 :: rest) =
            (s + (flatList rest).1, (flatList rest).2) := by
          show (match flatEntry e1 with
                | (s, true) =>
                  match flatList rest with
                  | (s2, ok2) => (s + s2, ok2)
                | (s, false) => (s, false)) = (s + (flatList rest).1, (flatList rest).2)
          rw [hfe]
        rw [List.cons_append]
        show (match flatEntry e1 with
              | (s, true) =>
                match flatList (rest ++ d :: cs2) with
                | (s2, ok2) => (s + s2, ok2)
              | (s, false) => (s, false)) = ((flatList (e1 :: rest)).1 + s0, false)
        rw [hfe, flatList_abort d s0 hd rest cs2 hrest, hexp]
        show (s + ((flatList rest).1 + s0), false) = (s + (flatList rest).1 + s0, false)
        rw [Nat.add_assoc]

theorem recList_append : ∀ a b : List Entry, recList (a ++ b) = recList a + recList b
  | [], b => by
    rw [List.nil_append]
    show recList b = 0 + recList b
    rw [Nat.zero_add]
  | e :: rest, b => by
    rw [List.cons_append]
    show recChild e + recList (rest ++ b) = recChild e + recList rest + recList b
    rw [recList_append rest b, Nat.add_assoc]

mutual

theorem recChildFuel_adequate : ∀ (f : Nat) (e : Entry), entryHeight e ≤ f →
    recChildFuel f e = some (recChild e)
  | 0, .file _ => fun _ => rfl
  | _ + 1, .file _ => fun _ => rfl
  | 0, .other _ => fun _ => rfl
  | _ + 1, .other _ => fun _ => rfl
  | 0, .dir _ false _ => fun _ => rfl
  | _ + 1, .dir _ false _ => fun _ => rfl
  | 0, .dir _ true cs => by
    intro h
    have h1 : listHeight cs + 1 ≤ 0 := h
    omega
  | f + 1, .dir _ true cs => by
    intro h
    have h1 : listHeight cs + 1 ≤ f + 1 := h
    exact recListFuel_adequate f cs (by omega)

theorem recListFuel_adequate : ∀ (f : Nat) (cs : List Entry), listHeight cs ≤ f →
    recListFuel f cs = some (recList cs)
  | _, [] => fun _ => rfl
  | f, e :: rest => by
    intro h
    have hmax : max (entryHeight e) (listHeight rest) ≤ f := h
    have h1 : entryHeight e ≤ f := le_trans (le_max_left _ _) hmax
    have h2 : listHeight rest ≤ f := le_trans (le_max_right _ _) hmax
    show (match recChildFuel f e with
          | none => none
          | some a =>
            match recListFuel f rest with
            | none => none
            | some b => some (a + b)) = some (recChild e + recList rest)
    rw [recChildFuel_adequate f e h1, recListFuel_adequate f rest h2]

end

/-! Claim theorems for the directory-size aggregators. -/

/-- C5: the nested-recursive variant walks one level at a time: a regular
file contributes its byte size, a directory the recursively accumulated
size of its subtree, any other entry type zero; whenever every subdirectory
opens, the total is exactly the sum of the regular files' sizes, a
directory holding one file of `N` bytes plus one empty subdirectory yields
exactly `N`, and an empty directory yields 0. -/
theorem directory_size_recursive_spec :
    (∀ (sz : Option Nat) (cs : List Entry), listDirsReadable cs = true →
      directory_size_recursive (some (.dir sz true cs)) = listFileTotal cs)
    ∧ (∀ (sz sz2 : Option Nat) (N : Nat),
      directory_size_recursive (some (.dir sz true [.file (some N), .dir sz2 true []])) = N)
    ∧ (∀ sz : Option Nat, directory_size_recursive (some (.dir sz true [])) = 0)
    ∧ (∀ n : Nat, recChild (.file (some n)) = n)
    ∧ (∀ sz : Option Nat, recChild (.other sz) = 0)
    ∧ (∀ (sz : Option Nat) (cs : List Entry),
      recChild (.dir sz true cs) = directory_size_recursive (some (.dir sz true cs))) := by
  refine ⟨?_, ?_, fun _ => rfl, fun _ => rfl, fun _ => rfl, fun _ _ => rfl⟩
  · intro sz cs h
    exact recList_eq_fileTotal cs h
  · intro sz sz2 N
    show recChild (.file (some N)) + (recChild (.dir sz2 true []) + recList []) = N
    show N + (0 + 0) = N
    omega

/-- Witness for C5: the general file-total law at a concrete two-level tree. -/
theorem directory_size_recursive_spec_witness :
    directory_size_recursive
      (some (.dir none true [.file (some 3), .dir (some 9) true [.file (some 4)], .other (some 8)])) =
    listFileTotal [.file (some 3), .dir (some 9) true [.file (some 4)], .other (some 8)] :=
  directory_size_recursive_spec.1 none _ (by decide)

/-- C6: the flat-recursive-iterator variant does not filter by entry type:
every visited entry — file, directory or other — adds `fs::file_size` of
the entry itself to the accumulator, so directories contribute their own
metadata size; on a tree whose directories all open, the result is the sum
of `fs::file_size` over every entry of the subtree. -/
theorem directory_size_spec :
    (∀ (sz : Option Nat) (cs : List Entry), listDirsReadable cs = true →
      directory_size (some (.dir sz true cs)) = listAllTotal cs)
    ∧ directory_size (some (.dir none true [.dir (some 7) true [], .file (some 5)])) = 12
    ∧ (∀ sz : Option Nat, (flatEntry (.file sz)).1 = sz.getD 0)
    ∧ (∀ sz : Option Nat, (flatEntry (.other sz)).1 = sz.getD 0)
    ∧ (∀ (sz : Option Nat) (r : Bool) (cs : List Entry),
      (flatEntry (.dir sz r cs)).1 = sz.getD 0 + (if r then (flatList cs).1 else 0)) := by
  refine ⟨?_, by decide, fun _ => rfl, fun _ => rfl, ?_⟩
  · intro sz cs h
    show (flatList cs).1 = listAllTotal cs
    rw [flatList_eq_allTotal cs h]
  · intro sz r cs
    cases r with
    | false =>
      show sz.getD 0 = sz.getD 0 + 0
      omega
    | true =>
      show (match flatList cs with
            | (s, ok) => (sz.getD 0 + s, ok)).1 = sz.getD 0 + (flatList cs).1
      cases hf : flatList cs with
      | mk s ok => rfl

/-- Witness for C6: the all-entries total law at a concrete tree. -/
theorem directory_size_spec_witness :
    directory_size (some (.dir none true [.dir (some 3) true [.file (some 7)], .file (some 5)])) =
    listAllTotal [.dir (some 3) true [.file (some 7)], .file (some 5)] :=
  directory_size_spec.1 none _ (by decide)

/-- C7 counterexample: a root containing one unreadable subdirectory
followed by an accessible 5-byte file. The claim says the bad entry
contributes zero while the remaining accessible entries are still summed
(total 5); the flat variant's iterator instead throws past the loop into
the whole-traversal handler, so the file is never visited and the function
returns 0. -/
theorem per_entry_failure_counterexample :
    directory_size (some (.dir none true [.dir none false [], .file (some 5)])) = 0 ∧
    directory_size (some (.dir none true [.dir none false [], .file (some 5)])) ≠ 5 := by
  decide

/-- C7 (amended): a failure obtaining an entry's size is caught per entry
in both variants — the entry adds zero and traversal continues with the
remaining entries; the nested variant likewise survives an unreadable
subdirectory (it contributes zero, siblings are still summed); but in the
flat variant an unreadable subdirectory aborts the rest of the traversal:
the returned total is the sum accumulated up to and including that entry. -/
theorem per_entry_failure_tolerance :
    (∀ (sz : Option Nat) (cs1 cs2 : List Entry) (e : Entry),
      (e = .file none ∨ e = .other none) →
      directory_size (some (.dir sz true (cs1 ++ e :: cs2))) =
        directory_size (some (.dir sz true (cs1 ++ cs2))))
    ∧ (∀ (sz : Option Nat) (cs1 cs2 : List Entry) (e : Entry), recChild e = 0 →
      directory_size_recursive (some (.dir sz true (cs1 ++ e :: cs2))) =
        directory_size_recursive (some (.dir sz true (cs1 ++ cs2))))
    ∧ (∀ (sz sz2 : Option Nat) (cs1 cs2 cs : List Entry), (flatList cs1).2 = true →
      directory_size (some (.dir sz true (cs1 ++ .dir sz2 false cs :: cs2))) =
        (flatList cs1).1 + sz2.getD 0) := by
  refine ⟨?_, ?_, ?_⟩
  · intro sz cs1 cs2 e he
    have hfe : flatEntry e = (0, true) := by
      rcases he with rfl | rfl <;> rfl
    show (flatList (cs1 ++ e :: cs2)).1 = (flatList (cs1 ++ cs2)).1
    rw [flatList_skip e hfe cs1 cs2]
  · intro sz cs1 cs2 e he
    show recList (cs1 ++ e :: cs2) = recList (cs1 ++ cs2)
    rw [recList_append, recList_append]
    show recList cs1 + (recChild e + recList cs2) = recList cs1 + recList cs2
    rw [he, Nat.zero_add]
  · intro sz sz2 cs1 cs2 cs h
    show (flatList (cs1 ++ .dir sz2 false cs :: cs2)).1 = (flatList cs1).1 + sz2.getD 0
    rw [flatList_abort (.dir sz2 false cs) (sz2.getD 0) rfl cs1 cs2 h]

/-- Witness for C7's amended theorem: tolerance of a size-read failure in
the flat variant at a concrete tree. -/
theorem per_entry_failure_tolerance_witness :
    directory_size (some (.dir none true ([.file (some 2)] ++ Entry.file none :: [.file (some 5)]))) =
      directory_size (some (.dir none true ([.file (some 2)] ++ [.file (some 5)]))) :=
  per_entry_failure_tolerance.1 none [.file (some 2)] [.file (some 5)] (.file none) (Or.inl rfl)

/-- C8: a root path that is missing, not a directory, or unopenable makes
both variants catch the traversal error instead of crashing (both functions
are total) and return the partial sum accumulated before the error, which
at the root is 0. -/
theorem root_failure_returns_zero (root : Option Entry) (h : rootOpens root = false) :
    directory_size root = 0 ∧ directory_size_recursive root = 0 := by
  cases root with
  | none => exact ⟨rfl, rfl⟩
  | some e =>
    cases e with
    | file sz => exact ⟨rfl, rfl⟩
    | other sz => exact ⟨rfl, rfl⟩
    | dir sz r cs =>
      cases r with
      | false => exact ⟨rfl, rfl⟩
      | true => exact Bool.noConfusion h

/-- Witness for C8: a missing root path. -/
theorem root_failure_returns_zero_witness :
    directory_size none = 0 ∧ directory_size_recursive none = 0 :=
  root_failure_returns_zero none rfl

/-- C10: termination of `directory_size_recursive` — the recursion descends
only into child directories, strictly smaller subtrees; on every finite
tree the fuelled evaluator, given fuel at least the tree's height, halts
and returns exactly the value of the total recursive function. -/
theorem directory_size_recursive_terminates (root : Option Entry) (f : Nat)
    (h : rootHeight root ≤ f) :
    directory_size_recursive_fuel f root = some (directory_size_recursive root) := by
  cases root with
  | none => rfl
  | some e =>
    cases e with
    | file sz => rfl
    | other sz => rfl
    | dir sz r cs =>
      cases r with
      | false => rfl
      | true => exact recListFuel_adequate f cs h

/-- Witness for C10: fuel 2 suffices for a two-level tree. -/
theorem directory_size_recursive_terminates_witness :
    directory_size_recursive_fuel 2 (some (.dir none true [.dir none true [.file (some 3)]])) =
      some (directory_size_recursive (some (.dir none true [.dir none true [.file (some 3)]]))) :=
  directory_size_recursive_terminates _ 2 (by decide)

end Koncar
